import Mathlib

/-!
Verification of the `mway/errors-go` repository: a shallow embedding of its
error-combinator package (`errors`) and its error-group package (`errgroup`),
with theorems settling the specification claims.

Go `error` values are modelled as `Option Err` (`none` is Go's `nil` error).
The error shapes this library constructs are:
  * plain errors from `errors.New` / `fmt.Errorf` without `%w`
    (`Err.base`, carrying a numeric identity because each construction is a
    distinct value even for identical text);
  * wrap errors from `fmt.Errorf("...: %w", ..., base)` (`Err.wrapped`,
    storing the fully formatted message and the wrapped predecessor, exactly
    as Go's `fmt.wrapError` does);
  * multi-errors from `go.uber.org/multierr` (`Err.joined`, storing the
    ordered component list, as multierr's `multiError` does).
-/

inductive Err : Type where
  | base (id : Nat) (msg : String)
  | wrapped (msg : String) (pred : Err)
  | joined (errs : List Err)

mutual

/-- Value equality of two errors (Go compares error interface values; for
this library's error shapes, equal identity and content). -/
def Err.beq : Err → Err → Bool
  | .base i m, .base j n => i == j && m == n
  | .wrapped m p, .wrapped n q => m == n && Err.beq p q
  | .joined es, .joined fs => Err.beqList es fs
  | _, _ => false

/-- Componentwise `Err.beq` on lists. -/
def Err.beqList : List Err → List Err → Bool
  | [], [] => true
  | e :: es, f :: fs => Err.beq e f && Err.beqList es fs
  | _, _ => false

end

mutual

theorem Err.eq_of_beq : {a b : Err} → Err.beq a b = true → a = b
  | .base _ _, .base _ _, h => by
    simp only [Err.beq, Bool.and_eq_true, beq_iff_eq] at h
    simp [h.1, h.2]
  | .wrapped _ _, .wrapped _ _, h => by
    simp only [Err.beq, Bool.and_eq_true, beq_iff_eq] at h
    have := Err.eq_of_beq h.2
    simp [h.1, this]
  | .joined es, .joined fs, h => by
    have := Err.eqList_of_beqList (a := es) (b := fs) h
    simp [this]

theorem Err.eqList_of_beqList : {a b : List Err} → Err.beqList a b = true → a = b
  | [], [], _ => rfl
  | _ :: _, _ :: _, h => by
    simp only [Err.beqList, Bool.and_eq_true] at h
    have h1 := Err.eq_of_beq h.1
    have h2 := Err.eqList_of_beqList h.2
    simp [h1, h2]

end

mutual

theorem Err.beq_refl : (a : Err) → Err.beq a a = true
  | .base _ _ => by simp [Err.beq]
  | .wrapped _ p => by simp [Err.beq, Err.beq_refl p]
  | .joined es => by simp [Err.beq, Err.beqList_refl es]

theorem Err.beqList_refl : (a : List Err) → Err.beqList a a = true
  | [] => rfl
  | e :: es => by simp [Err.beqList, Err.beq_refl e, Err.beqList_refl es]

end

instance : DecidableEq Err := fun a b =>
  if h : Err.beq a b = true then .isTrue (Err.eq_of_beq h)
  else .isFalse (fun he => h (he ▸ Err.beq_refl a))

mutual

/-- Message of an error: `errorString.Error` returns the stored text,
`wrapError.Error` returns the stored (already formatted) text, and
multierr's `multiError.Error` joins the component messages with "; "
(its single-line format). -/
def Err.message : Err → String
  | .base _ m => m
  | .wrapped m _ => m
  | .joined es => Err.messageList es

/-- Component messages joined with "; ", multierr's single-line rendering. -/
def Err.messageList : List Err → String
  | [] => ""
  | [e] => Err.message e
  | e :: es => Err.message e ++ "; " ++ Err.messageList es

end

/-- Message of a possibly-nil error; `none` has no message (rendered ""). -/
def messageOpt : Option Err → String
  | none => ""
  | some e => e.message

/-- Single-step unwrap, `errors.Unwrap`: only a wrap error has an
`Unwrap() error` method (a `multiError` exposes `Unwrap() []error`, which
does not satisfy the single-error interface, and plain errors have none). -/
def unwrapGo : Option Err → Option Err
  | some (.wrapped _ p) => some p
  | _ => none

mutual

/-- Chain membership of a target inside a non-nil error, the recursion of
Go's `errors.Is`: an error matches the target if it equals it, or (for a
wrap error) its predecessor's chain matches, or (for a multi-error, via
`Unwrap() []error`) some component's chain matches. -/
def Err.isMatch : Err → Err → Bool
  | .base i m, t => Err.beq (.base i m) t
  | .wrapped m p, t => Err.beq (.wrapped m p) t || Err.isMatch p t
  | .joined es, t => Err.beq (.joined es) t || Err.anyMatch es t

/-- Whether some error in the list Is-matches the target. -/
def Err.anyMatch : List Err → Err → Bool
  | [], _ => false
  | e :: es, t => Err.isMatch e t || Err.anyMatch es t

end

/-- Go's `errors.Is` on possibly-nil errors: `Is(nil, nil)` is true,
`Is(nil, e)` and `Is(e, nil)` are false for non-nil `e`. -/
def goIs : Option Err → Option Err → Bool
  | none, none => true
  | none, some _ => false
  | some _, none => false
  | some e, some t => e.isMatch t

/-- multierr's view of a non-nil error as a list of components: a
`multiError` contributes its component list, anything else a singleton. -/
def fromError : Err → List Err
  | .joined es => es
  | .base i m => [.base i m]
  | .wrapped m p => [.wrapped m p]

/-- Embedding of `multierr.Append`: nil on either side returns the other side verbatim;
two non-nil errors combine into a `multiError` holding both sides'
components (flattening either side that is already a `multiError`). -/
def mAppend : Option Err → Option Err → Option Err
  | none, r => r
  | some l, none => some l
  | some l, some r => some (.joined (fromError l ++ fromError r))

/-- One-level flattening of a list of errors into their components, as
multierr's `fromSlice` does when some entry is a `multiError`. -/
def flattenErrs : List Err → List Err
  | [] => []
  | e :: es => fromError e ++ flattenErrs es

/-- Embedding of `multierr.Combine` (via `fromSlice`): drop nil entries; zero remaining
gives nil, exactly one gives that error verbatim, two or more give a
`multiError` over the flattened components in order. -/
def mCombine (errs : List (Option Err)) : Option Err :=
  match errs.filterMap id with
  | [] => none
  | [e] => some e
  | e1 :: e2 :: rest => some (.joined (flattenErrs (e1 :: e2 :: rest)))

/-- Embedding of `errors.Wrap` (errors.go): nil base stays nil; empty message returns the
base verbatim; otherwise `fmt.Errorf("%s: %w", msg, base)`, whose value is a
wrap error with message `msg + ": " + base.Error()` and predecessor `base`. -/
def Wrap (base : Option Err) (msg : String) : Option Err :=
  match base with
  | none => none
  | some b =>
    if msg.length = 0 then some b
    else some (.wrapped (msg ++ ": " ++ b.message) b)

/-!
A small model of Go's `fmt` formatting, sufficient for the two `Wrapf`
implementations: a format string is a token list of literal runs and
argument-consuming verbs, where `verbS` stands for any ordinary verb
(rendering the argument it consumes) and `verbW` is `%w` (rendering the
error it consumes and recording it as the wrapped predecessor). `Option`
failure stands for Go's `%!`-style mis-formatting (argument count mismatch,
`%w` on a non-error, `%w` in `Sprintf`, or a second `%w` in `Errorf`); the
claims under verification hypothesize away those branches.
-/

inductive FmtTok : Type where
  | lit (s : String)
  | verbS
  | verbW
deriving DecidableEq

inductive FmtArg : Type where
  | str (s : String)
  | err (e : Err)
deriving DecidableEq

/-- Rendering of one consumed argument by an ordinary verb (an error
argument renders via its `Error()` message). -/
def renderArg : FmtArg → String
  | .str s => s
  | .err e => e.message

/-- Number of argument-consuming verbs in a format. -/
def countVerbs : List FmtTok → Nat
  | [] => 0
  | .lit _ :: ts => countVerbs ts
  | .verbS :: ts => countVerbs ts + 1
  | .verbW :: ts => countVerbs ts + 1

/-- Embedding of `fmt.Sprintf`: renders literals and ordinary verbs against the argument
list; fails on `%w` (unsupported by `Sprintf`) or argument mismatch. -/
def sprintfGo : List FmtTok → List FmtArg → Option String
  | [], [] => some ""
  | .lit s :: ts, as => (sprintfGo ts as).map (fun r => s ++ r)
  | .verbS :: ts, a :: as => (sprintfGo ts as).map (fun r => renderArg a ++ r)
  | _, _ => none

/-- Renders a format for `fmt.Errorf`, returning the full message together
with the (at most one) `%w` operand; fails on argument mismatch, `%w` with
a non-error operand, or more than one `%w`. -/
def errorfAux : List FmtTok → List FmtArg → Option (String × Option Err)
  | [], [] => some ("", none)
  | .lit s :: ts, as => (errorfAux ts as).map (fun rw => (s ++ rw.1, rw.2))
  | .verbS :: ts, a :: as => (errorfAux ts as).map (fun rw => (renderArg a ++ rw.1, rw.2))
  | .verbW :: ts, .err e :: as =>
    (errorfAux ts as).bind fun rw =>
      match rw.2 with
      | none => some (e.message ++ rw.1, some e)
      | some _ => none
  | _, _ => none

/-- Embedding of `fmt.Errorf`: with a `%w` verb the result is a wrap error holding the
full rendered message and the `%w` operand as predecessor; without one it
is a plain error (fresh identity, modelled with id 0; that branch is not
exercised by the claims, which always wrap). -/
def errorfGo (ts : List FmtTok) (as : List FmtArg) : Option Err :=
  (errorfAux ts as).map fun rw =>
    match rw.2 with
    | some e => .wrapped rw.1 e
    | none => .base 0 rw.1

/-- Embedding of `errors.Wrapf`, first implementation (errors.go lines 110-119): format
`msg` with `args` via `Sprintf`, then `fmt.Errorf("%s: %w", formatted,
base)`. The outer `Option` is the fmt-model failure (not a Go `nil`). -/
def Wrapf1 (base : Option Err) (msg : List FmtTok) (args : List FmtArg) :
    Option (Option Err) :=
  match base with
  | none => some none
  | some b =>
    if msg = [] ∧ args = [] then some (some b)
    else (sprintfGo msg args).bind fun s =>
      (errorfGo [.verbS, .lit ": ", .verbW] [.str s, .err b]).map some

/-- Embedding of `errors.Wrapf`, second implementation (errors.go lines 251-264): append
`base` to the argument list and format with `fmt.Errorf(msg + ": %w",
args..., base)`. -/
def Wrapf2 (base : Option Err) (msg : List FmtTok) (args : List FmtArg) :
    Option (Option Err) :=
  match base with
  | none => some none
  | some b =>
    if msg = [] ∧ args = [] then some (some b)
    else (errorfGo (msg ++ [.lit ": ", .verbW]) (args ++ [.err b])).map some

/-!
The `errgroup` package: `Options`, option mutators, and `Group`.
-/

/-- Embedding of `errgroup.Options` (part_001): ignored-error entries are Go `error`
values, hence possibly nil. -/
structure Options : Type where
  FirstOnly : Bool
  IgnoredErrors : List (Option Err)
  Inline : Bool
deriving DecidableEq

/-- An `errgroup.Option` is its `apply` action on an `Options` value (Go
mutates a pointed-to copy; the embedding returns the updated value). -/
def GOption : Type := Options → Options

/-- Embedding of `errgroup.DefaultOptions`: both booleans false, no ignored errors. -/
def DefaultOptions : Options := ⟨false, [], false⟩

/-- Embedding of `Options.With`: applies the given options left-to-right to a copy of
the receiver and returns the result (the receiver, passed by value, is
untouched). -/
def Options.With (o : Options) (opts : List GOption) : Options :=
  opts.foldl (fun acc f => f acc) o

/-- Embedding of `Options.apply`, which lets an `Options` value act as an `Option`
override: the override's boolean fields win outright, and its ignored-error
entries are appended after the target's (Go skips the append when the
override's slice is nil, which appends nothing either way). -/
def Options.asOption (ov : Options) : GOption := fun o =>
  { FirstOnly := ov.FirstOnly
    Inline := ov.Inline
    IgnoredErrors := o.IgnoredErrors ++ ov.IgnoredErrors }

/-- Embedding of `errgroup.WithFirstOnly`. -/
def WithFirstOnly : GOption := fun o => { o with FirstOnly := true }

/-- Embedding of `errgroup.WithInline`. -/
def WithInline : GOption := fun o => { o with Inline := true }

/-- Embedding of `errgroup.WithIgnoredErrors`: appends the given errors after the
existing ignored-error entries. -/
def WithIgnoredErrors (errs : List (Option Err)) : GOption := fun o =>
  { o with IgnoredErrors := o.IgnoredErrors ++ errs }

/-- The state of an `errgroup.Group` visible to the accumulation logic: the
accumulated error and the options snapshot. The mutex and wait-group
serialize the per-thunk accumulation steps; the embedding makes each step a
pure state transition and lets theorems quantify over the order in which
completed thunks reach it. -/
structure GroupState : Type where
  gerr : Option Err
  options : Options
deriving DecidableEq

/-- Embedding of `Group.appendError` (part_000 lines 100-119): nil results are dropped;
a result Is-matching any `IgnoredErrors` entry is dropped; under `FirstOnly`
with an error already recorded the result is dropped; otherwise the result
is folded in with `multierr.Append`. -/
def GroupState.appendError (g : GroupState) (err : Option Err) : GroupState :=
  match err with
  | none => g
  | some e =>
    if g.options.IgnoredErrors.any (fun ignored => goIs (some e) ignored) then g
    else if g.gerr.isSome && g.options.FirstOnly then g
    else { g with gerr := mAppend g.gerr (some e) }

/-- Feeds a sequence of completed thunk results through the accumulation
step in the given order. Inline dispatch produces exactly the call order;
concurrent dispatch produces some completion-order permutation. -/
def runResults (g : GroupState) (rs : List (Option Err)) : GroupState :=
  rs.foldl GroupState.appendError g

/-- Embedding of `Group.Add` in the inline code path (part_000 lines 64-70): each entry
of `fns` is invoked in order, with no nil check, and its result fed to
`appendError`; invoking a nil function value panics, modelled as `none`. -/
def GroupState.addInline (g : GroupState) (fns : List (Option (Unit → Option Err))) :
    Option GroupState :=
  fns.foldl
    (fun acc ofn => acc.bind fun g' =>
      match ofn with
      | none => none
      | some f => some (g'.appendError (f ())))
    (some g)

/-- Embedding of `Group.Wait`: after all outstanding thunks have gone through the
accumulation step, returns the accumulated error. -/
def GroupState.Wait (g : GroupState) : Option Err := g.gerr

/-- The first non-nil result in the given accumulation order that does not
Is-match any ignored entry (the specification side of claim C2). -/
def firstNonIgnored (opts : Options) : List (Option Err) → Option Err
  | [] => none
  | none :: rs => firstNonIgnored opts rs
  | some e :: rs =>
    if opts.IgnoredErrors.any (fun ignored => goIs (some e) ignored) then
      firstNonIgnored opts rs
    else some e

/-!
The lazy error. Modelled from the spec: `Lazy` is absent from `src/` (only
its tests are present). Per the spec, `Lazy(fn)` returns an Error whose
underlying value is produced by `fn`, evaluated at most once on first use
by any Error operation (message read, match, extract, unwrap) under a
single-flight once guard that serializes racing accessors, and memoized
thereafter; `fn` never runs if no operation is invoked. The guard
linearizes all accesses, so an arbitrary interleaving of the accessors'
operations is modelled as a sequence of operations applied to the lazy
state.
-/

structure LazyState : Type where
  memo : Option (Option Err)
  evalCount : Nat

/-- A fresh lazy error: nothing memoized, the function never run. -/
def lazyInit : LazyState := ⟨none, 0⟩

/-- Modelled from the spec: the once-guarded evaluation. Returns the
memoized value if present; otherwise runs `fn` once, memoizes, and counts
the evaluation. -/
def lazyForce (fn : Unit → Option Err) (s : LazyState) : Option Err × LazyState :=
  match s.memo with
  | some v => (v, s)
  | none => (fn (), ⟨some (fn ()), s.evalCount + 1⟩)

/-- The Error operations a lazy error delegates after forcing. -/
inductive LazyOp : Type where
  | msg
  | isTarget (t : Option Err)
  | unwrap

/-- Modelled from the spec: the value an Error operation observes — each
operation forces the lazy value and delegates to the corresponding
operation of the result. -/
def lazyOut (fn : Unit → Option Err) (s : LazyState) : LazyOp → String ⊕ Bool ⊕ Option Err
  | .msg => .inl (messageOpt (lazyForce fn s).1)
  | .isTarget t => .inr (.inl (goIs (lazyForce fn s).1 t))
  | .unwrap => .inr (.inr (unwrapGo (lazyForce fn s).1))

/-- The state transition an Error operation causes: whichever operation it
is, it forces the lazy value. -/
def lazyNext (fn : Unit → Option Err) (s : LazyState) : LazyOp → LazyState :=
  fun _ => (lazyForce fn s).2

/-- The state evolution of a lazy error across a sequence of operations. -/
def lazyRun (fn : Unit → Option Err) (ops : List LazyOp) : LazyState :=
  ops.foldl (lazyNext fn) lazyInit

/-!
Helper lemmas shared by the claim theorems.
-/

theorem Err.isMatch_refl : (e : Err) → e.isMatch e = true
  | .base _ _ => by simp [Err.isMatch, Err.beq]
  | .wrapped _ p => by simp [Err.isMatch, Err.beq_refl]
  | .joined es => by simp [Err.isMatch, Err.beq_refl]

theorem Err.anyMatch_of_mem {es : List Err} {t : Err} (h : t ∈ es) :
    Err.anyMatch es t = true := by
  induction es with
  | nil => cases h
  | cons e es ih =>
    rcases List.mem_cons.mp h with he | he
    · subst he
      simp [Err.anyMatch, Err.isMatch_refl]
    · simp [Err.anyMatch, ih he]

theorem Err.isMatch_of_mem_fromError {e t : Err} (h : t ∈ fromError e) :
    e.isMatch t = true := by
  cases e with
  | base i m =>
    simp only [fromError, List.mem_singleton] at h
    exact h ▸ Err.isMatch_refl _
  | wrapped m p =>
    simp only [fromError, List.mem_singleton] at h
    exact h ▸ Err.isMatch_refl _
  | joined es =>
    simp only [fromError] at h
    simp [Err.isMatch, Err.anyMatch_of_mem h]

theorem mem_flattenErrs {es : List Err} {e t : Err} (he : e ∈ es)
    (ht : t ∈ fromError e) : t ∈ flattenErrs es := by
  induction es with
  | nil => cases he
  | cons x es ih =>
    rcases List.mem_cons.mp he with h | h
    · exact List.mem_append.mpr (.inl (h ▸ ht))
    · exact List.mem_append.mpr (.inr (ih h))

theorem mAppend_none_right : (l : Option Err) → mAppend l none = l
  | none => rfl
  | some _ => rfl

theorem goIs_mCombine_of_mem {errs : List (Option Err)} {e t : Err}
    (he : some e ∈ errs) (ht : t ∈ fromError e) :
    goIs (mCombine errs) (some t) = true := by
  have hmem : e ∈ errs.filterMap id := by
    exact List.mem_filterMap.mpr ⟨some e, he, rfl⟩
  rcases hL : errs.filterMap id with _ | ⟨x, _ | ⟨y, rest⟩⟩
  · rw [hL] at hmem; cases hmem
  · rw [hL] at hmem
    have hex : e = x := List.mem_singleton.mp hmem
    simp only [mCombine, hL, goIs]
    exact hex ▸ Err.isMatch_of_mem_fromError ht
  · rw [hL] at hmem
    simp only [mCombine, hL, goIs, Err.isMatch, Bool.or_eq_true]
    right
    exact Err.anyMatch_of_mem (mem_flattenErrs hmem ht)

theorem GroupState.appendError_options (g : GroupState) (r : Option Err) :
    (g.appendError r).options = g.options := by
  cases r with
  | none => rfl
  | some e =>
    simp only [GroupState.appendError]
    split
    · rfl
    · split <;> rfl

theorem runResults_options (g : GroupState) (rs : List (Option Err)) :
    (runResults g rs).options = g.options := by
  induction rs generalizing g with
  | nil => rfl
  | cons r rs ih =>
    simp only [runResults, List.foldl_cons] at *
    rw [ih, GroupState.appendError_options]

theorem runResults_gerr_default {opts : Options} (h1 : opts.FirstOnly = false)
    (h2 : opts.IgnoredErrors = []) (ge : Option Err) (rs : List (Option Err)) :
    (runResults ⟨ge, opts⟩ rs).gerr = rs.foldl mAppend ge := by
  induction rs generalizing ge with
  | nil => rfl
  | cons r rs ih =>
    simp only [runResults, List.foldl_cons] at *
    cases r with
    | none =>
      rw [mAppend_none_right]
      exact ih ge
    | some e =>
      have hstep : GroupState.appendError ⟨ge, opts⟩ (some e)
          = ⟨mAppend ge (some e), opts⟩ := by
        simp [GroupState.appendError, h1, h2]
      rw [hstep]
      exact ih _

theorem filterMap_id_cons_none (rs : List (Option Err)) :
    ((none : Option Err) :: rs).filterMap id = rs.filterMap id := rfl

theorem filterMap_id_cons_some (b : Err) (rs : List (Option Err)) :
    (some b :: rs).filterMap id = b :: rs.filterMap id := rfl

theorem foldl_mAppend_some (a : Err) (rs : List (Option Err)) :
    rs.foldl mAppend (some a) =
      if rs.filterMap id = [] then some a
      else some (.joined (fromError a ++ flattenErrs (rs.filterMap id))) := by
  induction rs generalizing a with
  | nil => simp
  | cons r rs ih =>
    cases r with
    | none =>
      simp only [List.foldl_cons, mAppend_none_right, filterMap_id_cons_none]
      exact ih a
    | some b =>
      simp only [List.foldl_cons, filterMap_id_cons_some]
      have hstep : mAppend (some a) (some b)
          = some (.joined (fromError a ++ fromError b)) := rfl
      rw [hstep, ih]
      by_cases hr : rs.filterMap id = []
      · simp [hr, flattenErrs, fromError]
      · rw [if_neg hr, if_neg (List.cons_ne_nil b (rs.filterMap id))]
        simp [fromError, flattenErrs, List.append_assoc]

theorem foldl_mAppend_eq_mCombine (rs : List (Option Err)) :
    rs.foldl mAppend none = mCombine rs := by
  cases rs with
  | nil => rfl
  | cons r rs =>
    cases r with
    | none =>
      simp only [List.foldl_cons, mAppend]
      rw [foldl_mAppend_eq_mCombine rs]
      simp only [mCombine, filterMap_id_cons_none]
    | some b =>
      simp only [List.foldl_cons, mAppend]
      rw [foldl_mAppend_some]
      rcases hL : rs.filterMap id with _ | ⟨x, rest⟩
      · simp [mCombine, filterMap_id_cons_some, hL]
      · simp [mCombine, filterMap_id_cons_some, hL, flattenErrs]

theorem GroupState.appendError_firstOnly_frozen {g : GroupState}
    (h : g.options.FirstOnly = true) (hg : g.gerr ≠ none) (r : Option Err) :
    g.appendError r = g := by
  cases r with
  | none => rfl
  | some e =>
    simp only [GroupState.appendError]
    split
    · rfl
    · have : g.gerr.isSome = true := Option.isSome_iff_ne_none.mpr hg
      simp [this, h]

theorem runResults_firstOnly_frozen {g : GroupState}
    (h : g.options.FirstOnly = true) (hg : g.gerr ≠ none)
    (rs : List (Option Err)) : runResults g rs = g := by
  induction rs with
  | nil => rfl
  | cons r rs ih =>
    simp only [runResults, List.foldl_cons]
    rw [GroupState.appendError_firstOnly_frozen h hg r]
    exact ih

theorem runResults_firstOnly {opts : Options} (h : opts.FirstOnly = true)
    (rs : List (Option Err)) :
    (runResults ⟨none, opts⟩ rs).gerr = firstNonIgnored opts rs := by
  induction rs with
  | nil => rfl
  | cons r rs ih =>
    cases r with
    | none =>
      simp only [runResults, List.foldl_cons] at *
      have : GroupState.appendError ⟨none, opts⟩ none = ⟨none, opts⟩ := rfl
      rw [this, ih]
      rfl
    | some e =>
      by_cases hig : opts.IgnoredErrors.any (fun ignored => goIs (some e) ignored) = true
      · have hstep : GroupState.appendError ⟨none, opts⟩ (some e) = ⟨none, opts⟩ := by
          simp [GroupState.appendError, hig]
        simp only [runResults, List.foldl_cons] at *
        rw [hstep, ih]
        simp [firstNonIgnored, hig]
      · have hstep : GroupState.appendError ⟨none, opts⟩ (some e) = ⟨some e, opts⟩ := by
          simp only [GroupState.appendError]
          rw [if_neg hig]
          rfl
        simp only [runResults, List.foldl_cons]
        rw [hstep]
        have hfrozen := runResults_firstOnly_frozen
          (g := ⟨some e, opts⟩) h (by simp) rs
        simp only [runResults] at hfrozen
        rw [hfrozen]
        simp only [firstNonIgnored]
        rw [if_neg hig]

theorem GroupState.appendError_ignored {g : GroupState} {e : Err}
    (hig : g.options.IgnoredErrors.any (fun ignored => goIs (some e) ignored) = true) :
    g.appendError (some e) = g := by
  simp [GroupState.appendError, hig]

theorem GroupState.addInline_map_some (fns : List (Unit → Option Err))
    (g : GroupState) :
    g.addInline (fns.map some) = some (runResults g (fns.map fun f => f ())) := by
  induction fns generalizing g with
  | nil => rfl
  | cons f fns ih =>
    simp only [List.map_cons, GroupState.addInline, List.foldl_cons, Option.bind] at *
    exact ih (g.appendError (f ()))

theorem mCombine_message (rs : List (Option Err)) :
    messageOpt (mCombine rs) = Err.messageList (flattenErrs (rs.filterMap id)) := by
  rcases hL : rs.filterMap id with _ | ⟨x, _ | ⟨y, rest⟩⟩
  · simp [mCombine, hL, messageOpt, flattenErrs, Err.messageList]
  · simp only [mCombine, hL, messageOpt, flattenErrs]
    cases x with
    | base i m => simp [fromError, Err.message, Err.messageList]
    | wrapped m p => simp [fromError, Err.message, Err.messageList]
    | joined es => simp [fromError, Err.message, List.append_nil]
  · simp [mCombine, hL, messageOpt, Err.message]

theorem lazyRun_nil (fn : Unit → Option Err) : lazyRun fn [] = lazyInit := rfl

theorem lazyRun_forced (fn : Unit → Option Err) (v : Option Err) (c : Nat)
    (ops : List LazyOp) :
    ops.foldl (lazyNext fn) ⟨some v, c⟩ = ⟨some v, c⟩ := by
  induction ops with
  | nil => rfl
  | cons op ops ih =>
    simp only [List.foldl_cons]
    have : lazyNext fn ⟨some v, c⟩ op = ⟨some v, c⟩ := rfl
    rw [this, ih]

theorem lazyRun_cons (fn : Unit → Option Err) (op : LazyOp) (ops : List LazyOp) :
    lazyRun fn (op :: ops) = ⟨some (fn ()), 1⟩ := by
  simp only [lazyRun, List.foldl_cons]
  have : lazyNext fn lazyInit op = ⟨some (fn ()), 1⟩ := rfl
  rw [this]
  exact lazyRun_forced fn (fn ()) 1 ops

theorem GroupState.eq_mk {s : GroupState} {x : Option Err} {y : Options}
    (hx : s.gerr = x) (hy : s.options = y) : s = ⟨x, y⟩ := by
  cases s
  simp_all

/-!
The claim theorems.
-/

/-- C1, counterexample to the claim as stated: with default options, a
thunk that returns a multierr aggregate `Combine(a, b)` together with a
second thunk returning `c` yields a Wait error (the flattened aggregate of
`a`, `b`, `c`) that does NOT Is-match the first thunk's returned error —
`multierr.Append` flattens the aggregate, losing its identity. -/
theorem C1_counterexample :
    (runResults ⟨none, DefaultOptions⟩
        [some (.joined [.base 0 "a", .base 1 "b"]), some (.base 2 "c")]).Wait
      = some (.joined [.base 0 "a", .base 1 "b", .base 2 "c"]) ∧
    goIs (runResults ⟨none, DefaultOptions⟩
        [some (.joined [.base 0 "a", .base 1 "b"]), some (.base 2 "c")]).Wait
        (some (.joined [.base 0 "a", .base 1 "b"])) = false :=
  ⟨rfl, rfl⟩

/-- C1 (amended): for every Group with default options (FirstOnly unset,
empty IgnoredErrors), whatever order the thunk results reach the
accumulation step (inline call order `rs` or any concurrent completion
permutation `rs'` of it), the error returned by Wait matches, via Is,
every component of every non-nil error returned by a thunk — the thunk
error itself when it is not a multierr aggregate, and each of its members
when it is (the aggregate's own identity can be lost to flattening). -/
theorem C1_wait_matches_components {opts : Options} (h1 : opts.FirstOnly = false)
    (h2 : opts.IgnoredErrors = []) (rs rs' : List (Option Err))
    (hperm : rs'.Perm rs) (e t : Err) (he : some e ∈ rs) (ht : t ∈ fromError e) :
    goIs (runResults ⟨none, opts⟩ rs').Wait (some t) = true := by
  have he' : some e ∈ rs' := hperm.mem_iff.mpr he
  have hg : (runResults ⟨none, opts⟩ rs').Wait = mCombine rs' := by
    show (runResults ⟨none, opts⟩ rs').gerr = _
    rw [runResults_gerr_default h1 h2, foldl_mAppend_eq_mCombine]
  rw [hg]
  exact goIs_mCombine_of_mem he' ht

theorem C1_wait_matches_components_witness :
    goIs (runResults ⟨none, DefaultOptions⟩
        [some (.base 1 "b"), some (.base 0 "a")]).Wait (some (.base 0 "a")) = true :=
  C1_wait_matches_components rfl rfl
    [some (.base 0 "a"), some (.base 1 "b")] [some (.base 1 "b"), some (.base 0 "a")]
    (List.Perm.swap _ _ _) (.base 0 "a") (.base 0 "a") (by simp) (by simp [fromError])

/-- C2: for a Group configured with FirstOnly, Wait returns exactly the
first non-ignored non-nil error that went through the accumulation step,
verbatim; and once any error is recorded, every further result leaves the
accumulated state entirely unchanged. -/
theorem C2_first_only (opts : Options) (h : opts.FirstOnly = true)
    (rs : List (Option Err)) :
    (runResults ⟨none, opts⟩ rs).Wait = firstNonIgnored opts rs ∧
    (∀ g : GroupState, g.options.FirstOnly = true → g.gerr ≠ none →
      ∀ r, g.appendError r = g) :=
  ⟨runResults_firstOnly h rs,
   fun _ hg hne r => GroupState.appendError_firstOnly_frozen hg hne r⟩

theorem C2_first_only_witness :
    (runResults ⟨none, ⟨true, [], false⟩⟩
        [none, some (.base 0 "a"), some (.base 1 "b")]).Wait = some (.base 0 "a") :=
  (C2_first_only ⟨true, [], false⟩ rfl [none, some (.base 0 "a"), some (.base 1 "b")]).1

/-- C3: a thunk result Is-matching an entry of IgnoredErrors leaves the
Group state exactly unchanged — it never appears in Wait's error and does
not count as a recorded error for FirstOnly short-circuiting — and a later
non-nil non-ignored result is still recorded (returned by Wait). -/
theorem C3_ignored (g : GroupState) (e : Err)
    (hig : g.options.IgnoredErrors.any (fun ignored => goIs (some e) ignored) = true)
    (rs : List (Option Err)) :
    g.appendError (some e) = g ∧
    runResults g (some e :: rs) = runResults g rs ∧
    (∀ y : Err, g.gerr = none →
      g.options.IgnoredErrors.any (fun ignored => goIs (some y) ignored) = false →
      (runResults g [some e, some y]).Wait = some y) := by
  refine ⟨GroupState.appendError_ignored hig, ?_, ?_⟩
  · simp only [runResults, List.foldl_cons, GroupState.appendError_ignored hig]
  · intro y hnone hy
    show ((g.appendError (some e)).appendError (some y)).gerr = some y
    rw [GroupState.appendError_ignored hig]
    simp [GroupState.appendError, hy, hnone, mAppend]

theorem C3_ignored_witness :
    (runResults ⟨none, ⟨true, [some (.base 0 "eof")], true⟩⟩
        [some (.wrapped "read: eof" (.base 0 "eof")), some (.base 1 "y")]).Wait
      = some (.base 1 "y") :=
  (C3_ignored ⟨none, ⟨true, [some (.base 0 "eof")], true⟩⟩
      (.wrapped "read: eof" (.base 0 "eof")) rfl []).2.2 (.base 1 "y") rfl rfl

/-- C4, counterexample to the claim as stated: `Group.Add` performs no nil
check on its thunks (part_000 lines 64-79), so an Add call whose every
thunk is absent invokes a nil function value and panics (modelled as
`none`) instead of reaching Wait and returning nil. -/
theorem C4_counterexample :
    (GroupState.mk none DefaultOptions).addInline [none] = none :=
  rfl

/-- C4 (amended): calling Add with zero thunks followed by Wait returns
nil with no panic (for every Group state and options); an absent (nil)
thunk, however, is not skipped — it is invoked and panics. -/
theorem C4_add_zero_thunks (g : GroupState) (opts : Options) :
    g.addInline [] = some g ∧
    ((GroupState.mk none opts).addInline []).map GroupState.Wait = some none :=
  ⟨rfl, rfl⟩

/-- C5: Wrap of nil is nil; Wrap with an empty message is the base itself;
otherwise Wrap yields an error whose message is `msg ++ ": " ++` the base's
message, whose single unwrap step yields the base, and which Is-matches
the base. -/
theorem C5_wrap (b : Err) (msg : String) (hm : msg.length ≠ 0) :
    Wrap none msg = none ∧
    Wrap (some b) "" = some b ∧
    Wrap (some b) msg = some (.wrapped (msg ++ ": " ++ b.message) b) ∧
    messageOpt (Wrap (some b) msg) = msg ++ ": " ++ b.message ∧
    unwrapGo (Wrap (some b) msg) = some b ∧
    goIs (Wrap (some b) msg) (some b) = true := by
  have hw : Wrap (some b) msg = some (.wrapped (msg ++ ": " ++ b.message) b) := by
    simp [Wrap, hm]
  refine ⟨rfl, rfl, hw, ?_, ?_, ?_⟩
  · rw [hw]; rfl
  · rw [hw]; rfl
  · rw [hw]
    simp [goIs, Err.isMatch, Err.isMatch_refl]

theorem C5_wrap_witness :
    goIs (Wrap (some (.base 0 "boom")) "ctx") (some (.base 0 "boom")) = true :=
  (C5_wrap (.base 0 "boom") "ctx" (by decide)).2.2.2.2.2

/-- C6 (amended): Combine obeys the 0/1/2+ folding rule — all entries
absent gives absent; exactly one non-absent entry gives that error itself
with no extra layer; and the result Is-matches every component of every
non-absent entry: the entry itself when it is not a multierr aggregate,
each of its members when it is (an aggregate entry is flattened, so its
own identity may not be matched). -/
theorem C6_join_rule (errs : List (Option Err)) :
    (errs.filterMap id = [] → mCombine errs = none) ∧
    (∀ e, errs.filterMap id = [e] → mCombine errs = some e) ∧
    (∀ e t, some e ∈ errs → t ∈ fromError e →
      goIs (mCombine errs) (some t) = true) := by
  refine ⟨?_, ?_, ?_⟩
  · intro h
    simp [mCombine, h]
  · intro e h
    simp [mCombine, h]
  · intro e t he ht
    exact goIs_mCombine_of_mem he ht

theorem C6_join_rule_witness :
    mCombine [none, some (.base 3 "z")] = some (.base 3 "z") ∧
    goIs (mCombine [some (.base 4 "x"), none, some (.base 5 "y")])
      (some (.base 5 "y")) = true :=
  ⟨(C6_join_rule [none, some (.base 3 "z")]).2.1 (.base 3 "z") rfl,
   (C6_join_rule [some (.base 4 "x"), none, some (.base 5 "y")]).2.2
     (.base 5 "y") (.base 5 "y") (by simp) (by simp [fromError])⟩

/-- C6, counterexample to the claim as stated: a component that is itself
a multierr aggregate is flattened by Combine, so the combined error does
not Is-match that non-absent component. -/
theorem C6_counterexample :
    mCombine [some (.base 10 "x"), some (.joined [.base 11 "y", .base 12 "z"])]
      = some (.joined [.base 10 "x", .base 11 "y", .base 12 "z"]) ∧
    goIs (mCombine [some (.base 10 "x"), some (.joined [.base 11 "y", .base 12 "z"])])
      (some (.joined [.base 11 "y", .base 12 "z"])) = false :=
  ⟨rfl, rfl⟩

/-- C7: within one inline Add call the thunks run serially in the order
given and their results are fed to the accumulation step in that same
order (the fold over the call-order result list); with default
aggregation the accumulated error is Combine of the results in call
order, and its message is the deterministic "; "-separated concatenation
of the flattened component messages in call order. -/
theorem C7_inline_order {opts : Options} (h1 : opts.FirstOnly = false)
    (h2 : opts.IgnoredErrors = []) (fns : List (Unit → Option Err)) :
    (∀ g : GroupState, g.addInline (fns.map some)
        = some (runResults g (fns.map fun f => f ()))) ∧
    (GroupState.mk none opts).addInline (fns.map some)
        = some ⟨mCombine (fns.map fun f => f ()), opts⟩ ∧
    messageOpt (mCombine (fns.map fun f => f ()))
        = Err.messageList (flattenErrs ((fns.map fun f => f ()).filterMap id)) := by
  refine ⟨fun g => GroupState.addInline_map_some fns g, ?_, mCombine_message _⟩
  rw [GroupState.addInline_map_some]
  have h3 := runResults_gerr_default h1 h2 none (fns.map fun f => f ())
  rw [foldl_mAppend_eq_mCombine] at h3
  have h4 := runResults_options ⟨none, opts⟩ (fns.map fun f => f ())
  rw [GroupState.eq_mk h3 h4]

theorem C7_inline_order_witness :
    (GroupState.mk none DefaultOptions).addInline
        [some fun _ => some (.base 0 "a"), some fun _ => some (.base 1 "b")]
      = some ⟨some (.joined [.base 0 "a", .base 1 "b"]), DefaultOptions⟩ :=
  (C7_inline_order rfl rfl
    [fun _ => some (.base 0 "a"), fun _ => some (.base 1 "b")]).2.1

/-- C8: `Options.With` applies its option list left-to-right to a copy and
returns the result (prefix-splitting composes; the receiver, passed by
value, is never mutated); merging an `Options` override via its `apply`
lets the later value win outright for both boolean fields while the
ignored-error lists concatenate (the override's entries appended after the
base's), and `WithIgnoredErrors` likewise appends. -/
theorem C8_options_with (o : Options) (xs ys : List GOption) (ov : Options)
    (igs : List (Option Err)) :
    o.With (xs ++ ys) = (o.With xs).With ys ∧
    o.With [] = o ∧
    (o.With [Options.asOption ov]).FirstOnly = ov.FirstOnly ∧
    (o.With [Options.asOption ov]).Inline = ov.Inline ∧
    (o.With [Options.asOption ov]).IgnoredErrors
      = o.IgnoredErrors ++ ov.IgnoredErrors ∧
    (o.With [WithIgnoredErrors igs]).IgnoredErrors = o.IgnoredErrors ++ igs := by
  refine ⟨?_, rfl, rfl, rfl, rfl, rfl⟩
  simp [Options.With, List.foldl_append]

/-- C9 (Lazy modelled from the spec, which the missing source's tests
exercise): across any sequence of Error operations — any linearization of
racing accessors, since the once guard serializes them — the wrapped
function is evaluated at most once; it is never evaluated when no
operation is invoked; and after the first operation the state is exactly
the memoized single evaluation. -/
theorem C9_lazy_once (fn : Unit → Option Err) (ops : List LazyOp) :
    (lazyRun fn ops).evalCount ≤ 1 ∧
    (lazyRun fn []).evalCount = 0 ∧
    (ops ≠ [] → lazyRun fn ops = ⟨some (fn ()), 1⟩) := by
  refine ⟨?_, rfl, ?_⟩
  · cases ops with
    | nil => exact Nat.zero_le 1
    | cons op ops =>
      rw [lazyRun_cons]
  · intro h
    cases ops with
    | nil => exact absurd rfl h
    | cons op ops => exact lazyRun_cons fn op ops

theorem C9_lazy_once_witness :
    lazyRun (fun _ => some (.base 0 "lazy")) [.msg, .isTarget none, .unwrap]
      = ⟨some (some (.base 0 "lazy")), 1⟩ :=
  (C9_lazy_once (fun _ => some (.base 0 "lazy"))
    [.msg, .isTarget none, .unwrap]).2.2 (by simp)

theorem sprintfGo_isSome (ts : List FmtTok) :
    ∀ as : List FmtArg, FmtTok.verbW ∉ ts → countVerbs ts = as.length →
      ∃ s, sprintfGo ts as = some s := by
  induction ts with
  | nil =>
    intro as _ hc
    have : as = [] := List.length_eq_zero.mp hc.symm
    subst this
    exact ⟨"", rfl⟩
  | cons t ts ih =>
    intro as hw hc
    cases t with
    | lit s =>
      obtain ⟨r, hr⟩ := ih as (fun h => hw (List.mem_cons_of_mem _ h)) hc
      exact ⟨s ++ r, by simp [sprintfGo, hr]⟩
    | verbS =>
      cases as with
      | nil => simp [countVerbs] at hc
      | cons a as' =>
        have hc' : countVerbs ts = as'.length := by
          simp only [countVerbs, List.length_cons] at hc
          omega
        obtain ⟨r, hr⟩ := ih as' (fun h => hw (List.mem_cons_of_mem _ h)) hc'
        exact ⟨renderArg a ++ r, by simp [sprintfGo, hr]⟩
    | verbW => exact absurd (List.mem_cons_self _ _) hw

theorem errorfAux_append_w (b : Err) (ts : List FmtTok) :
    ∀ as : List FmtArg, FmtTok.verbW ∉ ts → countVerbs ts = as.length →
      errorfAux (ts ++ [.lit ": ", .verbW]) (as ++ [.err b])
        = (sprintfGo ts as).map fun s => (s ++ (": " ++ (b.message ++ "")), some b) := by
  induction ts with
  | nil =>
    intro as _ hc
    have : as = [] := List.length_eq_zero.mp hc.symm
    subst this
    rfl
  | cons t ts ih =>
    intro as hw hc
    cases t with
    | lit s =>
      have ih' := ih as (fun h => hw (List.mem_cons_of_mem _ h)) hc
      show (errorfAux (ts ++ [.lit ": ", .verbW]) (as ++ [.err b])).map
          (fun rw => (s ++ rw.1, rw.2))
        = (sprintfGo (.lit s :: ts) as).map
            fun r => (r ++ (": " ++ (b.message ++ "")), some b)
      rw [ih']
      cases hsp : sprintfGo ts as with
      | none => simp [sprintfGo, hsp]
      | some r => simp [sprintfGo, hsp, String.append_assoc]
    | verbS =>
      cases as with
      | nil => simp [countVerbs] at hc
      | cons a as' =>
        have hc' : countVerbs ts = as'.length := by
          simp only [countVerbs, List.length_cons] at hc
          omega
        have ih' := ih as' (fun h => hw (List.mem_cons_of_mem _ h)) hc'
        show (errorfAux (ts ++ [.lit ": ", .verbW]) (as' ++ [.err b])).map
            (fun rw => (renderArg a ++ rw.1, rw.2))
          = (sprintfGo (.verbS :: ts) (a :: as')).map
              fun r => (r ++ (": " ++ (b.message ++ "")), some b)
        rw [ih']
        cases hsp : sprintfGo ts as' with
        | none => simp [sprintfGo, hsp]
        | some r => simp [sprintfGo, hsp, String.append_assoc]
    | verbW => exact absurd (List.mem_cons_self _ _) hw

/-- C10: the two `Wrapf` implementations are extensionally equal under the
claim's hypotheses — the format contains no `%w` and the arguments are
exactly consumed by its verbs: both return Go nil on nil base, the base
verbatim when format and arguments are both empty, and otherwise the same
wrap error whose message is the formatted text followed by ": " and the
base's message and whose single unwrap step yields the base. -/
theorem C10_wrapf_equiv (b : Err) (ts : List FmtTok) (as : List FmtArg)
    (hw : FmtTok.verbW ∉ ts) (hc : countVerbs ts = as.length) :
    Wrapf1 (some b) ts as = Wrapf2 (some b) ts as ∧
    Wrapf1 none ts as = some none ∧
    Wrapf2 none ts as = some none ∧
    Wrapf1 (some b) [] [] = some (some b) ∧
    Wrapf2 (some b) [] [] = some (some b) ∧
    (¬(ts = [] ∧ as = []) →
      ∃ s, sprintfGo ts as = some s ∧
        Wrapf1 (some b) ts as
          = some (some (.wrapped (s ++ (": " ++ (b.message ++ ""))) b)) ∧
        unwrapGo (some (.wrapped (s ++ (": " ++ (b.message ++ ""))) b)) = some b) := by
  by_cases hempty : ts = [] ∧ as = []
  · obtain ⟨h1, h2⟩ := hempty
    subst h1
    subst h2
    exact ⟨rfl, rfl, rfl, rfl, rfl, fun h => absurd ⟨rfl, rfl⟩ h⟩
  · obtain ⟨s, hs⟩ := sprintfGo_isSome ts as hw hc
    have hW1 : Wrapf1 (some b) ts as
        = some (some (.wrapped (s ++ (": " ++ (b.message ++ ""))) b)) := by
      show (if ts = [] ∧ as = [] then some (some b)
          else (sprintfGo ts as).bind fun r =>
            (errorfGo [.verbS, .lit ": ", .verbW] [.str r, .err b]).map some) = _
      rw [if_neg hempty, hs]
      rfl
    have hW2 : Wrapf2 (some b) ts as
        = some (some (.wrapped (s ++ (": " ++ (b.message ++ ""))) b)) := by
      show (if ts = [] ∧ as = [] then some (some b)
          else (errorfGo (ts ++ [.lit ": ", .verbW]) (as ++ [.err b])).map some) = _
      rw [if_neg hempty]
      have he := errorfAux_append_w b ts as hw hc
      simp only [errorfGo, he, hs]
      rfl
    exact ⟨hW1.trans hW2.symm, rfl, rfl, rfl, rfl,
      fun _ => ⟨s, hs, hW1, rfl⟩⟩

theorem C10_wrapf_equiv_witness :
    Wrapf1 (some (.base 7 "boom")) [.lit "ctx ", .verbS] [.str "42"]
      = Wrapf2 (some (.base 7 "boom")) [.lit "ctx ", .verbS] [.str "42"] ∧
    Wrapf1 (some (.base 7 "boom")) [.lit "ctx ", .verbS] [.str "42"]
      = some (some (.wrapped "ctx 42: boom" (.base 7 "boom"))) :=
  ⟨(C10_wrapf_equiv (.base 7 "boom") [.lit "ctx ", .verbS] [.str "42"]
      (by decide) rfl).1,
   by decide⟩
